import Mathlib

set_option maxHeartbeats 1000000

/-! # Shallow embedding of the union-find repository

Source files: src/lib.rs (sequential `UnionFind<usize>`, `UnionFind<u32>`,
`BorrowedUnionFind<u32>`) and src/atomic.rs (atomic `u32` variant).

Stored entries are `usize` / `u32` machine integers, but every value the code
stores is an index `< capacity`, and both `u32` constructors guard
`capacity < u32::MAX`, so all `as u32` / `as usize` casts in the source are
lossless and the parent arrays are modelled as `List Nat`.  The `u32`-only
overflow guards (`new_u32`, `extend_by`) are modelled explicitly.  The atomic
variant (src/atomic.rs) runs the identical `get` / `get_compress` / `set`
algorithm with SeqCst atomics under `&mut self`, so the sequential model
below embeds it as well.

The `while` loop of `get` is modelled with explicit fuel `capacity`; on
well-formed states (`WFP` below) that fuel is enough to reach the root, which
is proved (via `pigeonSet`), not assumed. -/

/-- Reading `self.ptrs[v].get()`.  An out-of-range read panics in the source;
the model returns `v` itself there, and every theorem carries the in-range
hypotheses under which the two agree. -/
def parent (p : List Nat) (v : Nat) : Nat := p.getD v v

/-- Fuelled form of the loop `while let n = self.ptrs[v].get() && n != v { v = n }`
shared by `UnionFind::<usize>::get`, `UnionFind::<u32>::get` and
`atomic::UnionFind::get`. -/
def getAux (p : List Nat) : Nat → Nat → Nat
  | 0, v => v
  | f + 1, v => if parent p v = v then v else getAux p f (parent p v)

/-- The owned structure `UnionFind { ptrs: Vec<Cell<T>>, len: usize }`
(also the atomic variant's `UnionFind { ptrs: Vec<AtomicU32>, len: usize }`). -/
structure UF where
  ptrs : List Nat
  len : Nat
deriving DecidableEq, Repr

instance : DecidableEq (Except UF UF) := fun a b =>
  match a, b with
  | Except.ok x, Except.ok y =>
    if h : x = y then isTrue (by rw [h]) else isFalse (by simp [h])
  | Except.error x, Except.error y =>
    if h : x = y then isTrue (by rw [h]) else isFalse (by simp [h])
  | Except.ok _, Except.error _ => isFalse (by simp)
  | Except.error _, Except.ok _ => isFalse (by simp)

/-- `UnionFind::capacity`, i.e. `self.ptrs.len()`. -/
def UF.capacity (uf : UF) : Nat := uf.ptrs.length

/-- `UnionFind::get` (pure root-finding traversal). -/
def UF.get (uf : UF) (v : Nat) : Nat := getAux uf.ptrs uf.ptrs.length v

/-- `UnionFind::get_compress`: returns the root and writes it into slot `v`. -/
def UF.get_compress (uf : UF) (v : Nat) : Nat × UF :=
  (uf.get v, { uf with ptrs := uf.ptrs.set v (uf.get v) })

/-- The state effect of `get_compress` alone. -/
def UF.compressAt (uf : UF) (v : Nat) : UF := (uf.get_compress v).2

/-- `UnionFind::set` (= `union`), the in-range success path shared by all
three variants: `root_to = get_compress(t)`, then `root_v = get_compress(v)`,
and if distinct, link `root_v -> root_to` and decrement `len`. -/
def UF.set (uf : UF) (v t : Nat) : UF :=
  let rootTo := (uf.get_compress t).1
  let uf1 := (uf.get_compress t).2
  let rootV := (uf1.get_compress v).1
  let uf2 := (uf1.get_compress v).2
  if rootV = rootTo then uf2
  else { uf2 with ptrs := uf2.ptrs.set rootV rootTo, len := uf2.len - 1 }

/-- `UnionFind::<usize>::set` with its runtime checks: `assert!(v <= len)`,
`assert!(t <= len)` both use `<=`, so `v == capacity` or `t == capacity`
slips past the asserts and the failure happens at the subsequent slot access.
`Except.error` carries the state as it stands at the panic: when `t` is in
range but `v == capacity`, `get_compress(t)` has already run. -/
def UF.set_checked (uf : UF) (v t : Nat) : Except UF UF :=
  if v ≤ uf.ptrs.length then
    if t ≤ uf.ptrs.length then
      if t < uf.ptrs.length then
        if v < uf.ptrs.length then Except.ok (uf.set v t)
        else Except.error (uf.compressAt t)
      else Except.error uf
    else Except.error uf
  else Except.error uf

/-- `UnionFind::<usize>::new` / `::<u32>::new_u32`'s initialisation: a vector
whose slot `i` holds `i`. -/
def UF.new (n : Nat) : UF := { ptrs := List.range n, len := n }

/-- `UnionFind::new_u32` additionally asserts `len < u32::MAX`. -/
def u32Max : Nat := 4294967295

/-- `UnionFind::<u32>::new_u32`: `none` models the overflow assertion firing. -/
def UF.new_u32 (n : Nat) : Option UF :=
  if n < u32Max then some (UF.new n) else none

/-- `UnionFind::is_root` for both owned variants:
`self.ptrs.get(v).map(|p| p.get() == v).unwrap_or(false)`. -/
def UF.is_root (uf : UF) (v : Nat) : Bool :=
  match uf.ptrs[v]? with
  | some pv => pv == v
  | none => false

/-- `UnionFind::compress`: for each `i` in `0..capacity`, `terminal = get(i)`;
if different from `i`, `set(i, terminal)`. -/
def UF.compress (uf : UF) : UF :=
  (List.range uf.ptrs.length).foldl
    (fun acc i => if acc.get i ≠ i then acc.set i (acc.get i) else acc) uf

/-- The first `k` iterations of the `compress` sweep (proof device for
reasoning about the loop; `compress = compressPrefix capacity`). -/
def compressPrefix (uf : UF) (k : Nat) : UF :=
  (List.range k).foldl
    (fun acc i => if acc.get i ≠ i then acc.set i (acc.get i) else acc) uf

/-- `UnionFind::<usize>::extend_by`: `l = ptrs.len()` is read once, then `n`
slots holding `l`, `l+1`, ... are pushed and `len += n`. -/
def UF.extend_by (uf : UF) (n : Nat) : UF :=
  { ptrs := (List.range n).foldl (fun ps i => ps ++ [uf.ptrs.length + i]) uf.ptrs
    len := uf.len + n }

/-- `UnionFind::<u32>::extend_by` first asserts `(l + n) < u32::MAX`;
`none` models that assertion firing (the state is untouched at that point). -/
def UF.extend_by_u32 (uf : UF) (n : Nat) : Option UF :=
  if uf.ptrs.length + n < u32Max then some (uf.extend_by n) else none

/-- Direct-parent containment `r.contains(&(prev_v as usize))` checked by
`subset_clone` for every window element. -/
def closedDirect (p : List Nat) (s e : Nat) : Prop :=
  ∀ i < e, s ≤ i → s ≤ parent p i ∧ parent p i < e

instance (p : List Nat) (s e : Nat) : Decidable (closedDirect p s e) := by
  unfold closedDirect
  infer_instance

/-- Number of roots among global indices `[s, e)` (the well-formed window
case of the counts computed by `subset` and `subset_clone`). -/
def windowRoots (p : List Nat) (s e : Nat) : Nat :=
  (List.range' s (e - s)).countP (fun i => decide (parent p i = i))

/-- `UnionFind::<u32>::subset_clone(r)`: fails (`none`) when the window is
out of bounds or some window slot's direct parent lies outside the window;
otherwise copies the window re-based to 0 and counts the window's roots. -/
def UF.subset_clone (uf : UF) (s e : Nat) : Option UF :=
  if s ≤ e ∧ e ≤ uf.ptrs.length ∧ closedDirect uf.ptrs s e then
    some { ptrs := (List.range (e - s)).map (fun j => parent uf.ptrs (s + j) - s)
           len := windowRoots uf.ptrs s e }
  else none

/-- `BorrowedUnionFind<u32>`: `ptrs` is the slice `&mut owner.ptrs[s..e]`,
`len` a mutable borrow of the owner's count.  The model keeps the whole owner
array (`optrs`) plus the window `[s, e)`; the slice's slot `v` is
`optrs[s + v]`, and `olen` is the owner's count behind the `&mut`. -/
structure BUF where
  optrs : List Nat
  olen : Nat
  own_len : Nat
  s : Nat
  e : Nat
deriving DecidableEq, Repr

/-- The slice `&mut self.ptrs[r]` the view actually holds. -/
def BUF.slice (b : BUF) : List Nat := (b.optrs.take b.e).drop b.s

/-- `BorrowedUnionFind::capacity`, i.e. the slice length. -/
def BUF.capacity (b : BUF) : Nat := b.slice.length

/-- Fuelled form of the view's loop
`while let n = self.ptrs[v].get() as usize - self.r.start && n != v { v = n }`:
the slice's slot `v` holds the global index `optrs[s + v]`. -/
def sliceGetAux (p : List Nat) (s : Nat) : Nat → Nat → Nat
  | 0, v => v
  | f + 1, v =>
    if parent p (s + v) - s = v then v else sliceGetAux p s f (parent p (s + v) - s)

/-- `BorrowedUnionFind::<u32>::get` (local index in, local index out). -/
def BUF.get (b : BUF) (v : Nat) : Nat := sliceGetAux b.optrs b.s (b.e - b.s) v

/-- `BorrowedUnionFind::<u32>::get_compress`: writes `(dst + r.start)` into
the slice's slot `v`, i.e. into `optrs[s + v]`. -/
def BUF.get_compress (b : BUF) (v : Nat) : Nat × BUF :=
  (b.get v, { b with optrs := b.optrs.set (b.s + v) (b.get v + b.s) })

/-- `BorrowedUnionFind::<u32>::set`: both compressing lookups, then if the
local roots are distinct, link `root_v -> root_to` (stored re-based to
global), decrement the owner's count through the back-reference, and
decrement the view's own count. -/
def BUF.set (b : BUF) (v t : Nat) : BUF :=
  let rootTo := (b.get_compress t).1
  let b1 := (b.get_compress t).2
  let rootV := (b1.get_compress v).1
  let b2 := (b1.get_compress v).2
  if rootV = rootTo then b2
  else { b2 with optrs := b2.optrs.set (b2.s + rootV) (rootTo + b2.s)
                 olen := b2.olen - 1
                 own_len := b2.own_len - 1 }

/-- `BorrowedUnionFind::<u32>::is_root`:
`self.ptrs.get(v).map(|p| p.get() as usize == v).unwrap_or(false)` — it
compares the stored (global) index against the local index `v`. -/
def BUF.is_root (b : BUF) (v : Nat) : Bool :=
  match b.slice[v]? with
  | some pv => pv == v
  | none => false

/-- `UnionFind::<u32>::subset(r)`: counts the window's roots
(`.enumerate().take(r.end).skip(r.start).filter(|(i, v)| v.get() == i).count()`)
and hands out the borrowed view.  No closure check of any kind is performed. -/
def UF.subset (uf : UF) (s e : Nat) : BUF :=
  { optrs := uf.ptrs
    olen := uf.len
    own_len := (((List.range uf.ptrs.length).take e).drop s).countP
      (fun i => decide (parent uf.ptrs i = i))
    s := s
    e := e }

/-- `subset` with the panic of the slicing `&mut self.ptrs[r]` made explicit:
an out-of-bounds range fails, nothing else does. -/
def UF.subset_checked (uf : UF) (s e : Nat) : Option BUF :=
  if s ≤ e ∧ e ≤ uf.ptrs.length then some (uf.subset s e) else none

/-! ## Specification-side predicates -/

/-- Every stored parent is an in-range index. -/
def bounded (p : List Nat) : Prop := ∀ x ∈ p, x < p.length

/-- Every chain reaches a root within `capacity` steps. -/
def rootedAll (p : List Nat) : Prop :=
  ∀ v < p.length, parent p (getAux p p.length v) = getAux p p.length v

/-- Well-formed parent array: the invariant the spec's data model states
(`parent[i] == i` marks roots; following pointers from any index reaches a
root; no cycles but the self-loops). -/
def WFP (p : List Nat) : Prop := bounded p ∧ rootedAll p

instance (p : List Nat) : Decidable (WFP p) := by
  unfold WFP bounded rootedAll
  infer_instance

/-- Well-formed owned structure. -/
def UF.WF (uf : UF) : Prop := WFP uf.ptrs

instance (uf : UF) : Decidable uf.WF := by
  unfold UF.WF
  infer_instance

/-- `|{i : parent[i] == i}|` over the whole array. -/
def countRoots (p : List Nat) : Nat :=
  (List.range p.length).countP (fun i => decide (parent p i = i))

/-- The group-count bookkeeping invariant of the owned structure. -/
def lenInv (uf : UF) : Prop := uf.len = countRoots uf.ptrs

instance (uf : UF) : Decidable (lenInv uf) := by
  unfold lenInv
  infer_instance

/-- Well-formed live view: well-formed owner, in-bounds window, and the
window's direct parents stay inside it (the caller-guaranteed closure). -/
def BUF.WF (b : BUF) : Prop :=
  WFP b.optrs ∧ closedDirect b.optrs b.s b.e ∧ b.s ≤ b.e ∧ b.e ≤ b.optrs.length

instance (b : BUF) : Decidable b.WF := by
  unfold BUF.WF
  infer_instance

/-- The view's bookkeeping invariant: the owner's count (seen through the
back-reference) counts all roots, the view's own count counts the window's. -/
def BUF.inv (b : BUF) : Prop :=
  b.olen = countRoots b.optrs ∧ b.own_len = windowRoots b.optrs b.s b.e

instance (b : BUF) : Decidable b.inv := by
  unfold BUF.inv
  infer_instance

/-! ## Basic facts about `parent` and `getAux` -/

theorem parent_oob {p : List Nat} {v : Nat} (hv : p.length ≤ v) : parent p v = v := by
  unfold parent
  rw [List.getD_eq_default]
  exact hv

theorem parent_eq_getElem {p : List Nat} {v : Nat} (hv : v < p.length) :
    parent p v = p[v] := by
  unfold parent
  exact List.getD_eq_getElem p v hv

theorem parent_lt_length {p : List Nat} (hb : bounded p) {v : Nat} (hv : v < p.length) :
    parent p v < p.length := by
  rw [parent_eq_getElem hv]
  exact hb _ (List.getElem_mem hv)

theorem parent_set_self {p : List Nat} {v a : Nat} (hv : v < p.length) :
    parent (p.set v a) v = a := by
  unfold parent
  rw [List.getD_eq_getElem _ _ (by simpa using hv)]
  simp [List.getElem_set, hv]

theorem parent_set_ne {p : List Nat} {v a w : Nat} (h : w ≠ v) :
    parent (p.set v a) w = parent p w := by
  unfold parent
  by_cases hw : w < p.length
  · rw [List.getD_eq_getElem _ _ (by simpa using hw), List.getD_eq_getElem _ _ hw]
    simp [List.getElem_set, (Ne.symm h)]
  · rw [List.getD_eq_default _ _ (by simpa using Nat.le_of_not_lt hw),
      List.getD_eq_default _ _ (Nat.le_of_not_lt hw)]

theorem list_set_getD_self (p : List Nat) (v d : Nat) : p.set v (p.getD v d) = p := by
  induction p generalizing v d with
  | nil => rfl
  | cons a tl ih =>
    cases v with
    | zero => rfl
    | succ w => simpa using ih w d

theorem list_set_parent_self (p : List Nat) (v : Nat) : p.set v (parent p v) = p :=
  list_set_getD_self p v v

theorem bounded_set {p : List Nat} (hb : bounded p) {v a : Nat} (ha : a < p.length) :
    bounded (p.set v a) := by
  intro x hx
  rw [List.length_set]
  rcases List.mem_or_eq_of_mem_set hx with h | rfl
  · exact hb x h
  · exact ha

theorem getAux_root {p : List Nat} {r : Nat} (h : parent p r = r) (f : Nat) :
    getAux p f r = r := by
  induction f with
  | zero => rfl
  | succ f ih => simp [getAux, h]

/-! ## `getAux` as an iterate of `parent`, and fuel sufficiency -/

theorem iterate_parent_fix {p : List Nat} {v : Nat} (h : parent p v = v) (k : Nat) :
    (fun x => parent p x)^[k] v = v := by
  induction k with
  | zero => rfl
  | succ k ih => rw [Function.iterate_succ_apply', ih]; exact h

theorem getAux_eq_iterate (p : List Nat) (f v : Nat) :
    getAux p f v = (fun x => parent p x)^[f] v := by
  induction f generalizing v with
  | zero => rfl
  | succ f ih =>
    by_cases h : parent p v = v
    · simp [getAux, h, iterate_parent_fix h (f + 1)]
    · simp only [getAux, h, ite_false]
      rw [ih (parent p v), Function.iterate_succ_apply]

theorem iterate_stable {p : List Nat} {v f : Nat}
    (h : parent p ((fun x => parent p x)^[f] v) = (fun x => parent p x)^[f] v)
    {g : Nat} (hfg : f ≤ g) :
    (fun x => parent p x)^[g] v = (fun x => parent p x)^[f] v := by
  obtain ⟨d, rfl⟩ := Nat.exists_eq_add_of_le hfg
  rw [Nat.add_comm, Function.iterate_add_apply]
  exact iterate_parent_fix h d

theorem getAux_agree {p : List Nat} {v f g : Nat}
    (hf : parent p (getAux p f v) = getAux p f v)
    (hg : parent p (getAux p g v) = getAux p g v) :
    getAux p f v = getAux p g v := by
  rw [getAux_eq_iterate] at hf hg ⊢
  rw [getAux_eq_iterate]
  calc (fun x => parent p x)^[f] v
      = (fun x => parent p x)^[max f g] v := (iterate_stable hf (Nat.le_max_left f g)).symm
    _ = (fun x => parent p x)^[g] v := iterate_stable hg (Nat.le_max_right f g)

theorem iterate_mem_of_closed {p : List Nat} {P : Nat → Prop}
    (hP : ∀ x, P x → P (parent p x)) {v : Nat} (hv : P v) (k : Nat) :
    P ((fun x => parent p x)^[k] v) := by
  induction k with
  | zero => exact hv
  | succ k ih => rw [Function.iterate_succ_apply']; exact hP _ ih

/-- Pigeonhole: if all iterates of `parent` from `v` stay inside a finite set
`S` and some iterate is a fixed point, a fixed point is reached within
`S.card - 1` steps (stated: at some step `m < S.card`). -/
theorem pigeonSet {p : List Nat} {v : Nat} {S : Finset Nat}
    (hmem : ∀ k, (fun x => parent p x)^[k] v ∈ S)
    (hr : ∃ f, parent p ((fun x => parent p x)^[f] v) = (fun x => parent p x)^[f] v) :
    ∃ m < S.card, parent p ((fun x => parent p x)^[m] v) = (fun x => parent p x)^[m] v := by
  classical
  have hex : ∃ f, parent p ((fun x => parent p x)^[f] v) = (fun x => parent p x)^[f] v := hr
  refine ⟨Nat.find hex, ?_, Nat.find_spec hex⟩
  by_contra hcard
  push_neg at hcard
  have key : ∀ i j, i < j → j ≤ Nat.find hex →
      (fun x => parent p x)^[i] v ≠ (fun x => parent p x)^[j] v := by
    intro i j hij hjm heq
    have h1 : (fun x => parent p x)^[Nat.find hex] v
        = (fun x => parent p x)^[Nat.find hex - j + i] v := by
      conv_lhs => rw [show Nat.find hex = Nat.find hex - j + j by omega]
      rw [Function.iterate_add_apply, ← heq, ← Function.iterate_add_apply]
    have h2 : parent p ((fun x => parent p x)^[Nat.find hex - j + i] v)
        = (fun x => parent p x)^[Nat.find hex - j + i] v := by
      rw [← h1]; exact Nat.find_spec hex
    have h3 : Nat.find hex - j + i < Nat.find hex := by omega
    exact Nat.find_min hex h3 h2
  have hinj : Set.InjOn (fun i => (fun x => parent p x)^[i] v)
      ↑(Finset.range (Nat.find hex + 1)) := by
    intro i hi j hj hij
    simp only [Finset.coe_range, Set.mem_Iio] at hi hj
    by_contra hne
    rcases Nat.lt_or_ge i j with h | h
    · exact key i j h (by omega) hij
    · rcases Nat.lt_or_ge j i with h' | h'
      · exact key j i h' (by omega) hij.symm
      · exact hne (Nat.le_antisymm h' h)
  have hmaps : ∀ i ∈ Finset.range (Nat.find hex + 1),
      (fun x => parent p x)^[i] v ∈ S := fun i _ => hmem i
  have := Finset.card_le_card_of_injOn _ hmaps hinj
  simp only [Finset.card_range] at this
  omega

theorem iterate_lt_length {p : List Nat} (hb : bounded p) {v : Nat} (hv : v < p.length)
    (k : Nat) : (fun x => parent p x)^[k] v < p.length := by
  refine iterate_mem_of_closed (P := fun x => x < p.length) ?_ hv k
  intro x hx
  exact parent_lt_length hb hx

theorem getAux_length_lt {p : List Nat} (hb : bounded p) {v : Nat} (hv : v < p.length)
    (f : Nat) : getAux p f v < p.length := by
  rw [getAux_eq_iterate]
  exact iterate_lt_length hb hv f

/-- Inside a state whose chains terminate, fuel `p.length` already reaches
the same root as fuel `p.length + 1`. -/
theorem getAux_succ_len {p : List Nat} (hb : bounded p) {x : Nat} (hx : x < p.length)
    (h : parent p (getAux p (p.length + 1) x) = getAux p (p.length + 1) x) :
    getAux p p.length x = getAux p (p.length + 1) x ∧
      parent p (getAux p p.length x) = getAux p p.length x := by
  have hmem : ∀ k, (fun y => parent p y)^[k] x ∈ Finset.range p.length := by
    intro k
    simpa using iterate_lt_length hb hx k
  have hr : ∃ f, parent p ((fun y => parent p y)^[f] x) = (fun y => parent p y)^[f] x := by
    refine ⟨p.length + 1, ?_⟩
    rw [← getAux_eq_iterate]
    exact h
  obtain ⟨m, hm, hroot⟩ := pigeonSet hmem hr
  simp only [Finset.card_range] at hm
  have e1 : (fun y => parent p y)^[p.length] x = (fun y => parent p y)^[m] x :=
    iterate_stable hroot (Nat.le_of_lt hm)
  have e2 : (fun y => parent p y)^[p.length + 1] x = (fun y => parent p y)^[m] x :=
    iterate_stable hroot (by omega)
  constructor
  · rw [getAux_eq_iterate, getAux_eq_iterate, e1, e2]
  · rw [getAux_eq_iterate, e1]
    exact hroot

/-! ## Effect of one compression write `ptrs[v] := get(v)` -/

theorem set_root_self {p : List Nat} {x : Nat} (hx : parent p x = x) : p.set x x = p := by
  have h2 := list_set_getD_self p x x
  rwa [show p.getD x x = x from hx] at h2

theorem compress_path (p : List Nat) (v : Nat) (hwf : WFP p) (hv : v < p.length) :
    ∀ f x, parent p (getAux p f x) = getAux p f x →
      getAux (p.set v (getAux p p.length v)) f x = getAux p f x ∧
        parent (p.set v (getAux p p.length v)) (getAux p f x) = getAux p f x := by
  obtain ⟨hb, hroot⟩ := hwf
  have hrootr : parent p (getAux p p.length v) = getAux p p.length v := hroot v hv
  have keyroot : ∀ x, parent p x = x → parent (p.set v (getAux p p.length v)) x = x := by
    intro x hx
    by_cases hxv : x = v
    · subst hxv
      rw [getAux_root hx p.length, set_root_self hx]
      exact hx
    · rw [parent_set_ne hxv]
      exact hx
  intro f
  induction f with
  | zero =>
    intro x hx
    exact ⟨rfl, keyroot x hx⟩
  | succ f ih =>
    intro x hx
    by_cases hpx : parent p x = x
    · have hg : getAux p (f + 1) x = x := by simp [getAux, hpx]
      rw [hg]
      refine ⟨?_, keyroot x hpx⟩
      simp [getAux, keyroot x hpx]
    · have hg : getAux p (f + 1) x = getAux p f (parent p x) := by simp [getAux, hpx]
      rw [hg] at hx
      by_cases hxv : x = v
      · subst hxv
        have hRroot : parent p (getAux p (f + 1) x) = getAux p (f + 1) x := by
          rw [hg]
          exact hx
        have hRr : getAux p (f + 1) x = getAux p p.length x :=
          getAux_agree hRroot (hroot x hv)
        have hrv : getAux p p.length x ≠ x := by
          intro hcon
          apply hpx
          rw [← hcon]
          exact hrootr
        have hpv : parent (p.set x (getAux p p.length x)) x = getAux p p.length x :=
          parent_set_self hv
        refine ⟨?_, ?_⟩
        · rw [hRr]
          have hstep : getAux (p.set x (getAux p p.length x)) (f + 1) x
              = getAux (p.set x (getAux p p.length x)) f
                  (parent (p.set x (getAux p p.length x)) x) := by
            simp [getAux, hpv, hrv]
          rw [hstep, hpv]
          exact getAux_root (keyroot _ hrootr) f
        · rw [hRr]
          exact keyroot _ hrootr
      · obtain ⟨ih1, ih2⟩ := ih (parent p x) hx
        have hpx' : parent (p.set v (getAux p p.length v)) x = parent p x :=
          parent_set_ne hxv
        refine ⟨?_, ?_⟩
        · rw [hg]
          have hstep : getAux (p.set v (getAux p p.length v)) (f + 1) x
              = getAux (p.set v (getAux p p.length v)) f (parent p x) := by
            simp [getAux, hpx', hpx]
          rw [hstep, ih1]
        · rw [hg]
          exact ih2

theorem compressList_spec (p : List Nat) (v : Nat) (hwf : WFP p) (hv : v < p.length) :
    (p.set v (getAux p p.length v)).length = p.length ∧
      WFP (p.set v (getAux p p.length v)) ∧
      (∀ x < p.length,
        getAux (p.set v (getAux p p.length v)) p.length x = getAux p p.length x) ∧
      (∀ x, parent (p.set v (getAux p p.length v)) x = x ↔ parent p x = x) := by
  have hlen : (p.set v (getAux p p.length v)).length = p.length := List.length_set ..
  have hget : ∀ x < p.length,
      getAux (p.set v (getAux p p.length v)) p.length x = getAux p p.length x :=
    fun x hx => (compress_path p v hwf hv p.length x (hwf.2 x hx)).1
  refine ⟨hlen, ⟨?_, ?_⟩, hget, ?_⟩
  · have hr : getAux p p.length v < p.length := getAux_length_lt hwf.1 hv p.length
    exact bounded_set hwf.1 hr
  · intro x hx
    rw [hlen] at hx ⊢
    rw [hget x hx]
    exact (compress_path p v hwf hv p.length x (hwf.2 x hx)).2
  · intro x
    by_cases hxv : x = v
    · subst hxv
      rw [parent_set_self hv]
      constructor
      · intro hcon
        rw [← hcon]
        exact hwf.2 x hv
      · intro hx
        exact getAux_root hx p.length
    · rw [parent_set_ne hxv]

/-! ## Effect of the linking write `ptrs[root_v] := root_to` -/

theorem link_path (p : List Nat) (a b : Nat) (ha : a < p.length)
    (hra : parent p a = a) (hrb : parent p b = b) (hab : a ≠ b) :
    ∀ f x, parent p (getAux p f x) = getAux p f x →
      getAux (p.set a b) (f + 1) x = (if getAux p f x = a then b else getAux p f x) ∧
        parent (p.set a b) (if getAux p f x = a then b else getAux p f x)
          = (if getAux p f x = a then b else getAux p f x) := by
  have hpa : parent (p.set a b) a = b := parent_set_self ha
  have hpb : parent (p.set a b) b = b := by
    rw [parent_set_ne (Ne.symm hab)]
    exact hrb
  have keyroot : ∀ x, parent p x = x → x ≠ a → parent (p.set a b) x = x := by
    intro x hx hxa
    rw [parent_set_ne hxa]
    exact hx
  intro f
  induction f with
  | zero =>
    intro x hx
    by_cases hxa : x = a
    · subst hxa
      simp only [getAux, if_pos rfl]
      refine ⟨?_, hpb⟩
      simp [getAux, hpa, Ne.symm hab]
    · simp only [getAux, if_neg hxa]
      refine ⟨?_, keyroot x hx hxa⟩
      simp [getAux, keyroot x hx hxa]
  | succ f ih =>
    intro x hx
    by_cases hpx : parent p x = x
    · have hg : getAux p (f + 1) x = x := by simp [getAux, hpx]
      rw [hg]
      by_cases hxa : x = a
      · subst hxa
        simp only [if_pos rfl]
        refine ⟨?_, hpb⟩
        have hstep : getAux (p.set x b) (f + 1 + 1) x = getAux (p.set x b) (f + 1) b := by
          simp [getAux, hpa, Ne.symm hab]
        rw [hstep]
        exact getAux_root hpb (f + 1)
      · simp only [if_neg hxa]
        refine ⟨?_, keyroot x hpx hxa⟩
        simp [getAux, keyroot x hpx hxa]
    · have hxa : x ≠ a := by
        intro hcon
        rw [hcon] at hpx
        exact hpx hra
      have hg : getAux p (f + 1) x = getAux p f (parent p x) := by simp [getAux, hpx]
      rw [hg] at hx ⊢
      obtain ⟨ih1, ih2⟩ := ih (parent p x) hx
      have hpx' : parent (p.set a b) x = parent p x := parent_set_ne hxa
      refine ⟨?_, ih2⟩
      have hstep : getAux (p.set a b) (f + 1 + 1) x
          = getAux (p.set a b) (f + 1) (parent p x) := by
        simp [getAux, hpx', hpx]
      rw [hstep, ih1]

theorem linkList_spec (p : List Nat) (a b : Nat) (hwf : WFP p) (ha : a < p.length)
    (hbl : b < p.length) (hra : parent p a = a) (hrb : parent p b = b) (hab : a ≠ b) :
    (p.set a b).length = p.length ∧
      WFP (p.set a b) ∧
      (∀ x < p.length, getAux (p.set a b) p.length x
          = (if getAux p p.length x = a then b else getAux p p.length x)) ∧
      (∀ x, parent (p.set a b) x = x ↔ (parent p x = x ∧ x ≠ a)) := by
  have hlen : (p.set a b).length = p.length := List.length_set ..
  have hbset : bounded (p.set a b) := bounded_set hwf.1 hbl
  have hmain : ∀ x < p.length,
      getAux (p.set a b) (p.length + 1) x
          = (if getAux p p.length x = a then b else getAux p p.length x) ∧
        parent (p.set a b) (if getAux p p.length x = a then b else getAux p p.length x)
          = (if getAux p p.length x = a then b else getAux p p.length x) :=
    fun x hx => link_path p a b ha hra hrb hab p.length x (hwf.2 x hx)
  have hget : ∀ x < p.length, getAux (p.set a b) p.length x
      = (if getAux p p.length x = a then b else getAux p p.length x) := by
    intro x hx
    obtain ⟨h1, h2⟩ := hmain x hx
    have hterm : parent (p.set a b) (getAux (p.set a b) ((p.set a b).length + 1) x)
        = getAux (p.set a b) ((p.set a b).length + 1) x := by
      rw [hlen, h1]
      exact h2
    have := getAux_succ_len hbset (by rw [hlen]; exact hx) hterm
    rw [hlen] at this
    rw [this.1, h1]
  refine ⟨hlen, ⟨hbset, ?_⟩, hget, ?_⟩
  · intro x hx
    rw [hlen] at hx ⊢
    rw [hget x hx]
    exact (hmain x hx).2
  · intro x
    by_cases hxa : x = a
    · subst hxa
      rw [parent_set_self ha]
      constructor
      · intro hcon
        exact absurd hcon.symm hab
      · intro hcon
        exact absurd rfl hcon.2
    · rw [parent_set_ne hxa]
      constructor
      · intro hcon
        exact ⟨hcon, hxa⟩
      · intro hcon
        exact hcon.1

/-! ## Root counting -/

theorem drop_range (n m : Nat) : (List.range n).drop m = List.range' m (n - m) := by
  apply List.ext_getElem
  · simp
  · intro i h1 h2
    simp

theorem countP_drop_one {l : List Nat} {f g : Nat → Bool} {a : Nat}
    (hnd : l.Nodup) (hal : a ∈ l) (hcong : ∀ x ∈ l, x ≠ a → g x = f x)
    (hfa : f a = true) (hga : g a = false) : l.countP g + 1 = l.countP f := by
  induction l with
  | nil => simp at hal
  | cons c tl ih =>
    rcases List.mem_cons.mp hal with rfl | hmem
    · have hnotin : a ∉ tl := (List.nodup_cons.mp hnd).1
      rw [List.countP_cons, List.countP_cons, hfa, hga]
      have htl : tl.countP g = tl.countP f := by
        apply List.countP_congr
        intro x hx
        rw [hcong x (List.mem_cons_of_mem _ hx) (fun h => hnotin (h ▸ hx))]
      simp [htl]
    · have hca : c ≠ a := by
        rintro rfl
        exact (List.nodup_cons.mp hnd).1 hmem
      rw [List.countP_cons, List.countP_cons, hcong c (List.mem_cons_self c tl) hca]
      have := ih (List.nodup_cons.mp hnd).2 hmem
        (fun x hx hxa => hcong x (List.mem_cons_of_mem _ hx) hxa)
      omega

theorem countRoots_congr {p q : List Nat} (hlen : q.length = p.length)
    (hiff : ∀ x, parent q x = x ↔ parent p x = x) : countRoots q = countRoots p := by
  unfold countRoots
  rw [hlen]
  apply List.countP_congr
  intro x hx
  simp only [decide_eq_true_eq]
  exact hiff x

theorem windowRoots_congr {p q : List Nat}
    (hiff : ∀ x, parent q x = x ↔ parent p x = x) (s e : Nat) :
    windowRoots q s e = windowRoots p s e := by
  unfold windowRoots
  apply List.countP_congr
  intro x hx
  simp only [decide_eq_true_eq]
  exact hiff x

theorem countRoots_set_root {p : List Nat} {a b : Nat} (ha : a < p.length)
    (hra : parent p a = a)
    (hiff : ∀ x, parent (p.set a b) x = x ↔ (parent p x = x ∧ x ≠ a)) :
    countRoots (p.set a b) + 1 = countRoots p := by
  unfold countRoots
  rw [List.length_set]
  apply countP_drop_one (List.nodup_range p.length) (by simpa using ha)
  · intro x hx hxa
    apply decide_eq_decide.mpr
    rw [hiff x]
    exact ⟨fun h => h.1, fun h => ⟨h, hxa⟩⟩
  · simpa using hra
  · simp [hiff a]

theorem windowRoots_set_root {p : List Nat} {a b s e : Nat} (hsa : s ≤ a) (hae : a < e)
    (hra : parent p a = a)
    (hiff : ∀ x, parent (p.set a b) x = x ↔ (parent p x = x ∧ x ≠ a)) :
    windowRoots (p.set a b) s e + 1 = windowRoots p s e := by
  unfold windowRoots
  apply countP_drop_one (List.nodup_range' s (e - s) 1 Nat.one_pos)
    (List.mem_range'_1.mpr ⟨hsa, by omega⟩)
  · intro x hx hxa
    apply decide_eq_decide.mpr
    rw [hiff x]
    exact ⟨fun h => h.1, fun h => ⟨h, hxa⟩⟩
  · simpa using hra
  · simp [hiff a]

/-! ## The owned operations through the list-level lemmas -/

theorem compressAt_ptrs (uf : UF) (v : Nat) :
    (uf.compressAt v).ptrs = uf.ptrs.set v (uf.get v) := rfl

theorem compressAt_len_eq (uf : UF) (v : Nat) : (uf.compressAt v).len = uf.len := rfl

theorem compressAt_length (uf : UF) (v : Nat) :
    (uf.compressAt v).ptrs.length = uf.ptrs.length := List.length_set ..

theorem compressAt_WF {uf : UF} (hwf : uf.WF) {v : Nat} (hv : v < uf.capacity) :
    (uf.compressAt v).WF :=
  (compressList_spec uf.ptrs v hwf hv).2.1

theorem compressAt_get {uf : UF} (hwf : uf.WF) {v : Nat} (hv : v < uf.capacity) :
    ∀ x < uf.capacity, (uf.compressAt v).get x = uf.get x := by
  intro x hx
  show getAux (uf.compressAt v).ptrs (uf.compressAt v).ptrs.length x = uf.get x
  rw [compressAt_ptrs, List.length_set]
  exact (compressList_spec uf.ptrs v hwf hv).2.2.1 x hx

theorem compressAt_parent_iff {uf : UF} (hwf : uf.WF) {v : Nat} (hv : v < uf.capacity) :
    ∀ x, parent (uf.compressAt v).ptrs x = x ↔ parent uf.ptrs x = x :=
  (compressList_spec uf.ptrs v hwf hv).2.2.2

theorem get_root_self {uf : UF} (hwf : uf.WF) {v : Nat} (hv : v < uf.capacity) :
    parent uf.ptrs (uf.get v) = uf.get v :=
  hwf.2 v hv

theorem get_lt_capacity {uf : UF} (hwf : uf.WF) {v : Nat} (hv : v < uf.capacity) :
    uf.get v < uf.capacity :=
  getAux_length_lt hwf.1 hv uf.ptrs.length

/-- Full characterisation of `set` on in-range arguments of a well-formed
state: the capacity is unchanged, well-formedness is preserved, every root
query afterwards answers the destination root exactly for the members of
`v`'s old group (when the groups were distinct), and the stored count drops
by one exactly when two groups were joined. -/
theorem set_spec {uf : UF} (hwf : uf.WF) {v t : Nat} (hv : v < uf.capacity)
    (ht : t < uf.capacity) :
    (uf.set v t).ptrs.length = uf.ptrs.length ∧
      (uf.set v t).WF ∧
      (∀ x < uf.capacity, (uf.set v t).get x =
        (if uf.get x = uf.get v ∧ uf.get v ≠ uf.get t then uf.get t else uf.get x)) ∧
      ((uf.set v t).len = if uf.get v = uf.get t then uf.len else uf.len - 1) ∧
      (if uf.get v = uf.get t
        then countRoots (uf.set v t).ptrs = countRoots uf.ptrs
        else countRoots (uf.set v t).ptrs + 1 = countRoots uf.ptrs) := by
  have h1 := compressList_spec uf.ptrs t hwf ht
  have h1wf : (uf.compressAt t).WF := compressAt_WF hwf ht
  have h1len : (uf.compressAt t).ptrs.length = uf.ptrs.length := compressAt_length uf t
  have h1get : ∀ x < uf.capacity, (uf.compressAt t).get x = uf.get x :=
    compressAt_get hwf ht
  have hv1 : v < (uf.compressAt t).capacity := by
    show v < (uf.compressAt t).ptrs.length
    rw [h1len]
    exact hv
  have h2wf : ((uf.compressAt t).compressAt v).WF := compressAt_WF h1wf hv1
  have h2len : ((uf.compressAt t).compressAt v).ptrs.length = uf.ptrs.length := by
    rw [compressAt_length, h1len]
  have h2get : ∀ x < uf.capacity, ((uf.compressAt t).compressAt v).get x = uf.get x := by
    intro x hx
    rw [compressAt_get h1wf hv1 x (by show x < (uf.compressAt t).ptrs.length; rw [h1len]; exact hx)]
    exact h1get x hx
  have h2parent : ∀ x,
      parent ((uf.compressAt t).compressAt v).ptrs x = x ↔ parent uf.ptrs x = x := by
    intro x
    rw [compressAt_parent_iff h1wf hv1 x, compressAt_parent_iff hwf ht x]
  have h2lenf : ((uf.compressAt t).compressAt v).len = uf.len := rfl
  have hunfold : uf.set v t =
      (if (uf.compressAt t).get v = uf.get t
        then (uf.compressAt t).compressAt v
        else { ptrs := ((uf.compressAt t).compressAt v).ptrs.set
                  ((uf.compressAt t).get v) (uf.get t)
               len := ((uf.compressAt t).compressAt v).len - 1 }) := rfl
  rw [h1get v hv] at hunfold
  by_cases hcase : uf.get v = uf.get t
  · rw [hunfold, if_pos hcase]
    refine ⟨h2len, h2wf, ?_, ?_, ?_⟩
    · intro x hx
      rw [if_neg (by simp [hcase]), h2get x hx]
    · rw [if_pos hcase]
      exact h2lenf
    · rw [if_pos hcase]
      exact countRoots_congr h2len h2parent
  · have hra2 : parent ((uf.compressAt t).compressAt v).ptrs (uf.get v) = uf.get v :=
      (h2parent _).mpr (get_root_self hwf hv)
    have hrb2 : parent ((uf.compressAt t).compressAt v).ptrs (uf.get t) = uf.get t :=
      (h2parent _).mpr (get_root_self hwf ht)
    have ha2 : uf.get v < ((uf.compressAt t).compressAt v).ptrs.length := by
      rw [h2len]
      exact get_lt_capacity hwf hv
    have hb2 : uf.get t < ((uf.compressAt t).compressAt v).ptrs.length := by
      rw [h2len]
      exact get_lt_capacity hwf ht
    have hlink := linkList_spec ((uf.compressAt t).compressAt v).ptrs (uf.get v) (uf.get t)
      h2wf ha2 hb2 hra2 hrb2 hcase
    rw [hunfold, if_neg hcase]
    refine ⟨?_, ?_, ?_, ?_, ?_⟩
    · show (((uf.compressAt t).compressAt v).ptrs.set (uf.get v) (uf.get t)).length
        = uf.ptrs.length
      rw [hlink.1, h2len]
    · exact hlink.2.1
    · intro x hx
      show getAux (((uf.compressAt t).compressAt v).ptrs.set (uf.get v) (uf.get t))
          (((uf.compressAt t).compressAt v).ptrs.set (uf.get v) (uf.get t)).length x
        = (if uf.get x = uf.get v ∧ uf.get v ≠ uf.get t then uf.get t else uf.get x)
      rw [hlink.1, h2len]
      have hx2 : x < ((uf.compressAt t).compressAt v).ptrs.length := by
        rw [h2len]
        exact hx
      have := hlink.2.2.1 x hx2
      rw [h2len] at this
      rw [this]
      have hgx : getAux ((uf.compressAt t).compressAt v).ptrs uf.ptrs.length x = uf.get x := by
        have h3 := h2get x hx
        show _ = uf.get x
        rw [← h3]
        show getAux _ uf.ptrs.length x = getAux _ (((uf.compressAt t).compressAt v).ptrs.length) x
        rw [h2len]
      rw [hgx]
      by_cases hxv : uf.get x = uf.get v
      · rw [if_pos hxv, if_pos ⟨hxv, hcase⟩]
      · rw [if_neg hxv, if_neg (by simp [hxv])]
    · rw [if_neg hcase]
      show ((uf.compressAt t).compressAt v).len - 1 = uf.len - 1
      rw [h2lenf]
    · rw [if_neg hcase]
      show countRoots (((uf.compressAt t).compressAt v).ptrs.set (uf.get v) (uf.get t)) + 1
        = countRoots uf.ptrs
      rw [countRoots_set_root ha2 hra2 hlink.2.2.2]
      exact countRoots_congr h2len h2parent

/-! ## Claims C1, C8, C5, C6 -/

/-- C1: for every well-formed forest and in-range indices `a`, `b`, after
`union(a, b)` (i.e. `set(a, b)`) the roots of `a` and `b` agree, and the
common value is the root `find(b)` returned immediately before the call
(destination-rooted merge; the same algorithm is run by
`UnionFind::<usize>::set`, `UnionFind::<u32>::set` and `atomic::UnionFind::set`). -/
theorem C1_merge_destination_rooted (uf : UF) (a b : Nat) (hwf : uf.WF)
    (ha : a < uf.capacity) (hb : b < uf.capacity) :
    (uf.set a b).get a = (uf.set a b).get b ∧ (uf.set a b).get b = uf.get b := by
  obtain ⟨-, -, hget, -, -⟩ := set_spec hwf ha hb
  have hga := hget a ha
  have hgb := hget b hb
  constructor
  · rw [hga, hgb, ite_self]
    by_cases hcase : uf.get a = uf.get b
    · rw [if_neg (by simp [hcase])]
      exact hcase
    · rw [if_pos ⟨rfl, hcase⟩]
  · rw [hgb, ite_self]

theorem C1_merge_destination_rooted_witness :
    ((UF.new 2).set 0 1).get 0 = ((UF.new 2).set 0 1).get 1 ∧
      ((UF.new 2).set 0 1).get 1 = (UF.new 2).get 1 :=
  C1_merge_destination_rooted (UF.new 2) 0 1 (by decide) (by decide) (by decide)

/-- C8: `find` (i.e. `get_compress`) is idempotent on a well-formed forest:
running it again, on the state the first call left behind and at the value it
returned, returns the same value, and that value is a root. -/
theorem C8_find_idempotent (uf : UF) (v : Nat) (hwf : uf.WF) (hv : v < uf.capacity) :
    ((uf.get_compress v).2.get_compress ((uf.get_compress v).1)).1 = (uf.get_compress v).1 ∧
      parent uf.ptrs ((uf.get_compress v).1) = (uf.get_compress v).1 := by
  constructor
  · show (uf.compressAt v).get (uf.get v) = uf.get v
    rw [compressAt_get hwf hv (uf.get v) (get_lt_capacity hwf hv)]
    exact getAux_root (get_root_self hwf hv) _
  · exact get_root_self hwf hv

theorem C8_find_idempotent_witness :
    (((UF.mk [0, 0, 1] 1).get_compress 2).2.get_compress
        (((UF.mk [0, 0, 1] 1).get_compress 2).1)).1 = ((UF.mk [0, 0, 1] 1).get_compress 2).1 ∧
      parent (UF.mk [0, 0, 1] 1).ptrs (((UF.mk [0, 0, 1] 1).get_compress 2).1)
        = ((UF.mk [0, 0, 1] 1).get_compress 2).1 :=
  C8_find_idempotent (UF.mk [0, 0, 1] 1) 2 (by decide) (by decide)

/-- C5 counterexample: in the well-formed forest `[0, 0, 1]` (a chain
`2 -> 1 -> 0`), indices `2` and `0` are already in the same group, yet
`set(2, 0)` rewrites parent slot `2` (the embedded compressing query writes
`ptrs[2] := 0`), so "no parent slot is modified" fails. -/
theorem C5_counterexample :
    (UF.mk [0, 0, 1] 1).WF ∧
      (UF.mk [0, 0, 1] 1).get 2 = (UF.mk [0, 0, 1] 1).get 0 ∧
      ((UF.mk [0, 0, 1] 1).set 2 0).ptrs ≠ (UF.mk [0, 0, 1] 1).ptrs := by decide

/-- C5 (amended): when `v` and `t` are already in the same group, `set(v, t)`
leaves the stored count, the capacity and the whole partition (every root
query) unchanged; parent slots, however, may still be rewritten by the
embedded compressing queries. -/
theorem C5_same_group_preserves (uf : UF) (v t : Nat) (hwf : uf.WF)
    (hv : v < uf.capacity) (ht : t < uf.capacity) (hsame : uf.get v = uf.get t) :
    (uf.set v t).len = uf.len ∧
      (uf.set v t).ptrs.length = uf.ptrs.length ∧
      (∀ x < uf.capacity, (uf.set v t).get x = uf.get x) := by
  obtain ⟨hlen, -, hget, hlenf, -⟩ := set_spec hwf hv ht
  refine ⟨?_, hlen, ?_⟩
  · rw [hlenf, if_pos hsame]
  · intro x hx
    rw [hget x hx, if_neg (by simp [hsame])]

theorem C5_same_group_preserves_witness :
    ((UF.mk [0, 0, 1] 1).set 2 0).len = (UF.mk [0, 0, 1] 1).len :=
  (C5_same_group_preserves (UF.mk [0, 0, 1] 1) 2 0 (by decide) (by decide) (by decide)
    (by decide)).1

/-- C6 counterexample: `set(3, 2)` on the well-formed 3-element forest
`[0, 0, 1]` passes both `<=`-asserts (`3 <= 3`), compresses slot `2`, and
only then fails at the out-of-range access `ptrs[3]`, so the structure at the
moment of failure differs from the original: the failing call did not leave
the structure unchanged. -/
theorem C6_counterexample :
    (UF.mk [0, 0, 1] 1).WF ∧
      (UF.mk [0, 0, 1] 1).set_checked 3 2 = Except.error (UF.mk [0, 0, 0] 1) ∧
      UF.mk [0, 0, 0] 1 ≠ UF.mk [0, 0, 1] 1 := by decide

/-- C6 (amended): `set` succeeds exactly when both indices are strictly below
the capacity, and every call with an index `>= capacity` fails; the state at
the failure is the original one when an assert fires (index `> capacity`) or
when the destination index equals the capacity, but when `v == capacity` with
the destination in range, the destination's slot has already been compressed
by the time of the failure (the partition is still unchanged). -/
theorem C6_out_of_bounds (uf : UF) (v t : Nat) (hwf : uf.WF) :
    ((∃ uf', uf.set_checked v t = Except.ok uf') ↔ v < uf.capacity ∧ t < uf.capacity) ∧
      (uf.capacity < v ∨ uf.capacity < t → uf.set_checked v t = Except.error uf) ∧
      (t = uf.capacity → uf.set_checked v t = Except.error uf) ∧
      (v = uf.capacity → t < uf.capacity →
        uf.set_checked v t = Except.error (uf.compressAt t) ∧
          ∀ x < uf.capacity, (uf.compressAt t).get x = uf.get x) := by
  have hcap : uf.capacity = uf.ptrs.length := rfl
  refine ⟨⟨?_, ?_⟩, ?_, ?_, ?_⟩
  · rintro ⟨uf', h⟩
    unfold UF.set_checked at h
    split_ifs at h with h1 h2 h3 h4
    exact ⟨hcap ▸ h4, hcap ▸ h3⟩
  · rintro ⟨hv, ht⟩
    rw [hcap] at hv ht
    refine ⟨uf.set v t, ?_⟩
    unfold UF.set_checked
    rw [if_pos (Nat.le_of_lt hv), if_pos (Nat.le_of_lt ht), if_pos ht, if_pos hv]
  · intro h
    rw [hcap] at h
    unfold UF.set_checked
    by_cases h1 : v ≤ uf.ptrs.length
    · rw [if_pos h1, if_neg (by omega)]
    · rw [if_neg h1]
  · intro h
    rw [hcap] at h
    unfold UF.set_checked
    by_cases h1 : v ≤ uf.ptrs.length
    · rw [if_pos h1, if_pos (by omega), if_neg (by omega)]
    · rw [if_neg h1]
  · intro hveq ht
    rw [hcap] at hveq ht
    constructor
    · unfold UF.set_checked
      rw [if_pos (by omega), if_pos (by omega), if_pos ht, if_neg (by omega)]
    · exact compressAt_get hwf (hcap ▸ ht)

theorem C6_out_of_bounds_witness :
    (UF.mk [0, 0, 1] 1).set_checked 3 2 = Except.error ((UF.mk [0, 0, 1] 1).compressAt 2) ∧
      ∀ x < (UF.mk [0, 0, 1] 1).capacity,
        ((UF.mk [0, 0, 1] 1).compressAt 2).get x = (UF.mk [0, 0, 1] 1).get x :=
  (C6_out_of_bounds (UF.mk [0, 0, 1] 1) 3 2 (by decide)).2.2.2 (by decide) (by decide)

/-! ## Claim C7: the full compression sweep -/

theorem compress_eq_prefix (uf : UF) : uf.compress = compressPrefix uf uf.ptrs.length := rfl

theorem compressPrefix_succ (uf : UF) (k : Nat) :
    compressPrefix uf (k + 1) =
      (if (compressPrefix uf k).get k ≠ k
        then (compressPrefix uf k).set k ((compressPrefix uf k).get k)
        else compressPrefix uf k) := by
  unfold compressPrefix
  rw [List.range_succ, List.foldl_append]
  rfl

/-- One sweep iteration on a well-formed state is exactly the compression
write at its index (the `set(i, terminal)` call always takes the same-root
early return, after its inner `get_compress` calls have already written). -/
theorem compressStep_eq {acc : UF} (hwf : acc.WF) {k : Nat} (hk : k < acc.capacity) :
    (if acc.get k ≠ k then acc.set k (acc.get k) else acc) = acc.compressAt k := by
  have hroott : parent acc.ptrs (acc.get k) = acc.get k := hwf.2 k hk
  by_cases h : acc.get k = k
  · rw [if_neg (by simp [h])]
    have hroot : parent acc.ptrs k = k := by rwa [h] at hroott
    have hset : acc.ptrs.set k (acc.get k) = acc.ptrs := by
      rw [h]
      exact set_root_self hroot
    show acc = { acc with ptrs := acc.ptrs.set k (acc.get k) }
    rw [hset]
  · rw [if_pos h]
    have habs : acc.get (acc.get k) = acc.get k := getAux_root hroott _
    have huf1 : (acc.get_compress (acc.get k)).2 = acc := by
      show { acc with ptrs := acc.ptrs.set (acc.get k) (acc.get (acc.get k)) } = acc
      rw [habs, set_root_self hroott]
    have hunfold : acc.set k (acc.get k) =
        (if ((acc.get_compress (acc.get k)).2.get_compress k).1
              = (acc.get_compress (acc.get k)).1
          then ((acc.get_compress (acc.get k)).2.get_compress k).2
          else { ptrs := ((acc.get_compress (acc.get k)).2.get_compress k).2.ptrs.set
                    ((acc.get_compress (acc.get k)).2.get_compress k).1
                    (acc.get_compress (acc.get k)).1
                 len := ((acc.get_compress (acc.get k)).2.get_compress k).2.len - 1 }) := rfl
    rw [hunfold, huf1]
    have hcond : (acc.get_compress k).1 = (acc.get_compress (acc.get k)).1 := by
      show acc.get k = acc.get (acc.get k)
      rw [habs]
    rw [if_pos hcond]
    rfl

/-- Invariant carried through the sweep: after the first `k` iterations the
state is well-formed, the count and all root queries are unchanged, and the
slots `< k` have been rewritten to point directly at their original roots. -/
theorem compressPrefix_spec (uf : UF) (hwf : uf.WF) :
    ∀ k ≤ uf.ptrs.length,
      (compressPrefix uf k).ptrs.length = uf.ptrs.length ∧
        (compressPrefix uf k).WF ∧
        (compressPrefix uf k).len = uf.len ∧
        (∀ x < uf.capacity, (compressPrefix uf k).get x = uf.get x) ∧
        (∀ i < uf.ptrs.length, parent (compressPrefix uf k).ptrs i
            = if i < k then uf.get i else parent uf.ptrs i) := by
  intro k
  induction k with
  | zero =>
    intro _
    exact ⟨rfl, hwf, rfl, fun x _ => rfl, fun i _ => by simp [compressPrefix]⟩
  | succ k ih =>
    intro hk1
    obtain ⟨hlen, hacc, hlenf, hget, hparent⟩ := ih (by omega)
    have hkcap : k < (compressPrefix uf k).capacity := by
      show k < (compressPrefix uf k).ptrs.length
      omega
    have hstep : compressPrefix uf (k + 1) = (compressPrefix uf k).compressAt k := by
      rw [compressPrefix_succ]
      exact compressStep_eq hacc hkcap
    refine ⟨?_, ?_, ?_, ?_, ?_⟩
    · rw [hstep, compressAt_length, hlen]
    · rw [hstep]
      exact compressAt_WF hacc hkcap
    · rw [hstep, compressAt_len_eq, hlenf]
    · intro x hx
      rw [hstep, compressAt_get hacc hkcap x (by show x < (compressPrefix uf k).ptrs.length; rw [hlen]; exact hx)]
      exact hget x hx
    · intro i hi
      rw [hstep, compressAt_ptrs]
      by_cases hik : i = k
      · subst hik
        rw [parent_set_self (by omega)]
        rw [if_pos (by omega)]
        exact hget i (by exact hi)
      · rw [parent_set_ne hik, hparent i hi]
        by_cases hik2 : i < k
        · rw [if_pos hik2, if_pos (by omega)]
        · rw [if_neg hik2, if_neg (by omega)]

/-- C7: on a well-formed forest, `compress()` leaves every index pointing
directly at its root — all chains flatten to depth at most 1
(`parent[parent[i]] = parent[i]`) — while the stored count, every root query
(the partition), and the number of roots are unchanged. -/
theorem C7_compress_flattens (uf : UF) (hwf : uf.WF) :
    (∀ i < uf.capacity,
      parent uf.compress.ptrs (parent uf.compress.ptrs i) = parent uf.compress.ptrs i) ∧
      uf.compress.len = uf.len ∧
      (∀ i < uf.capacity, uf.compress.get i = uf.get i) ∧
      countRoots uf.compress.ptrs = countRoots uf.ptrs := by
  obtain ⟨hlen, hwf2, hlenf, hget, hparent⟩ :=
    compressPrefix_spec uf hwf uf.ptrs.length (Nat.le_refl _)
  rw [← compress_eq_prefix] at hlen hwf2 hlenf hget hparent
  have hpar : ∀ i < uf.capacity, parent uf.compress.ptrs i = uf.get i := by
    intro i hi
    rw [hparent i hi, if_pos (show i < uf.ptrs.length from hi)]
  refine ⟨?_, hlenf, hget, ?_⟩
  · intro i hi
    rw [hpar i hi, hpar (uf.get i) (get_lt_capacity hwf hi)]
    exact getAux_root (get_root_self hwf hi) _
  · apply countRoots_congr hlen
    intro x
    by_cases hx : x < uf.ptrs.length
    · rw [hpar x hx]
      constructor
      · intro h
        rw [← h]
        exact get_root_self hwf hx
      · intro h
        exact getAux_root h _
    · rw [parent_oob (by omega), parent_oob (by omega)]

theorem C7_compress_flattens_witness :
    (UF.mk [0, 0, 1] 1).compress.len = (UF.mk [0, 0, 1] 1).len ∧
      parent (UF.mk [0, 0, 1] 1).compress.ptrs
          (parent (UF.mk [0, 0, 1] 1).compress.ptrs 2)
        = parent (UF.mk [0, 0, 1] 1).compress.ptrs 2 :=
  ⟨(C7_compress_flattens (UF.mk [0, 0, 1] 1) (by decide)).2.1,
    (C7_compress_flattens (UF.mk [0, 0, 1] 1) (by decide)).1 2 (by decide)⟩

/-! ## Claim C9: growth -/

theorem extend_fold_closed (p : List Nat) (l : Nat) (n : Nat) :
    (List.range n).foldl (fun ps i => ps ++ [l + i]) p
      = p ++ (List.range n).map (fun i => l + i) := by
  induction n with
  | zero => simp
  | succ n ih =>
    rw [List.range_succ, List.foldl_append, ih, List.map_append]
    simp

theorem extend_by_ptrs (uf : UF) (n : Nat) :
    (uf.extend_by n).ptrs = uf.ptrs ++ (List.range n).map (fun i => uf.ptrs.length + i) :=
  extend_fold_closed uf.ptrs uf.ptrs.length n

/-- C9 (amended): `extend_by(n)` grows the capacity by `n`, grows `len` by
`n`, and initialises each new index as its own root; the `u32` specialisation
accepts exactly the requests with `capacity + n < u32::MAX` — a new capacity
equal to `u32::MAX`, although still representable, is also rejected. -/
theorem C9_extend_by (uf : UF) (n : Nat) :
    ((uf.extend_by n).capacity = uf.capacity + n ∧
      (uf.extend_by n).len = uf.len + n ∧
      ∀ i < n, parent (uf.extend_by n).ptrs (uf.capacity + i) = uf.capacity + i) ∧
      (uf.capacity + n < u32Max → uf.extend_by_u32 n = some (uf.extend_by n)) ∧
      (u32Max ≤ uf.capacity + n → uf.extend_by_u32 n = none) := by
  have hcap : uf.capacity = uf.ptrs.length := rfl
  refine ⟨⟨?_, rfl, ?_⟩, ?_, ?_⟩
  · show (uf.extend_by n).ptrs.length = uf.ptrs.length + n
    rw [extend_by_ptrs]
    simp
  · intro i hi
    rw [extend_by_ptrs, hcap]
    have hlt : uf.ptrs.length + i < (uf.ptrs ++ (List.range n).map
        (fun i => uf.ptrs.length + i)).length := by
      simp
      omega
    rw [parent_eq_getElem hlt, List.getElem_append_right (by omega)]
    simp
  · intro h
    unfold UF.extend_by_u32
    rw [if_pos (hcap ▸ h)]
  · intro h
    unfold UF.extend_by_u32
    rw [if_neg (by omega)]

theorem C9_extend_by_witness :
    ((UF.new 2).extend_by 3).capacity = (UF.new 2).capacity + 3 ∧
      parent ((UF.new 2).extend_by 3).ptrs ((UF.new 2).capacity + 1)
        = (UF.new 2).capacity + 1 ∧
      (UF.new 2).extend_by_u32 3 = some ((UF.new 2).extend_by 3) :=
  ⟨(C9_extend_by (UF.new 2) 3).1.1,
    (C9_extend_by (UF.new 2) 3).1.2.2 1 (by decide),
    (C9_extend_by (UF.new 2) 3).2.1 (by decide)⟩

/-- C9 counterexample: growing the empty forest by `4294967295` elements
yields the new capacity `4294967295 = u32::MAX`, which still lies within the
representable `u32` range, yet the `u32` `extend_by` rejects it: its assert
demands `capacity + n` strictly below `u32::MAX`. -/
theorem C9_counterexample :
    (UF.mk [] 0).capacity + 4294967295 ≤ u32Max ∧
      (UF.mk [] 0).extend_by_u32 4294967295 = none := by
  constructor
  · show 0 + 4294967295 ≤ u32Max
    unfold u32Max
    omega
  · unfold UF.extend_by_u32
    rw [if_neg (by show ¬((UF.mk [] 0).ptrs.length + 4294967295 < u32Max); unfold u32Max; simp)]

/-! ## Claims C10 and C3: `is_root` -/

/-- C10: an out-of-range `is_root` query answers `false` silently, on the
owned structure (both index widths read the slot through `Vec::get`, whose
`None` is mapped to `false`) and on the borrowed view alike, in contrast to
the failing behaviour of the other operations. -/
theorem C10_is_root_out_of_range (uf : UF) (b : BUF) (v w : Nat)
    (hv : uf.capacity ≤ v) (hw : b.capacity ≤ w) :
    uf.is_root v = false ∧ b.is_root w = false := by
  constructor
  · unfold UF.is_root
    rw [List.getElem?_eq_none hv]
  · unfold BUF.is_root
    rw [List.getElem?_eq_none hw]

theorem C10_is_root_out_of_range_witness :
    (UF.new 3).is_root 3 = false ∧ ((UF.new 4).subset 1 3).is_root 2 = false :=
  C10_is_root_out_of_range (UF.new 3) ((UF.new 4).subset 1 3) 3 2 (by decide) (by decide)

/-- C3: the borrowed view's `is_root` compares the stored global index
against the local index.  On `new_u32(2).subset(1..2)`, local index `0` is a
root — the view's own `get(0)` returns `0` — yet `is_root(0)` answers
`false` (the slot holds the global index `1`), contradicting the method's
doc comment ("Checks if a vertex is itself the root of a tree") and the
`find(v) == v` characterisation. -/
theorem C3_view_is_root_bug :
    ((UF.new 2).subset 1 2).get 0 = 0 ∧ ((UF.new 2).subset 1 2).is_root 0 = false := by
  decide

/-! ## The borrowed view's traversal against the owner's -/

theorem sliceGet_bridge {p : List Nat} {s e : Nat} (hc : closedDirect p s e) :
    ∀ f v, v < e - s →
      s + sliceGetAux p s f v = getAux p f (s + v) ∧
        s ≤ getAux p f (s + v) ∧ getAux p f (s + v) < e := by
  intro f
  induction f with
  | zero =>
    intro v hv
    exact ⟨rfl, Nat.le_add_right s v, by show s + v < e; omega⟩
  | succ f ih =>
    intro v hv
    have hsv : s + v < e := by omega
    have hcl := hc (s + v) hsv (Nat.le_add_right s v)
    by_cases hstop : parent p (s + v) = s + v
    · have h1 : parent p (s + v) - s = v := by omega
      simp only [sliceGetAux, getAux]
      rw [if_pos h1, if_pos hstop]
      exact ⟨rfl, Nat.le_add_right s v, hsv⟩
    · have h1 : parent p (s + v) - s ≠ v := by omega
      have hrec := ih (parent p (s + v) - s) (by omega)
      have harg : s + (parent p (s + v) - s) = parent p (s + v) := by omega
      rw [harg] at hrec
      simp only [sliceGetAux, getAux]
      rw [if_neg h1, if_neg hstop]
      exact hrec

/-- On a well-formed view, the local root query is the owner's root query
shifted by the window offset, and its result stays inside the window. -/
theorem view_get_global {b : BUF} (hwf : b.WF) {v : Nat} (hv : v < b.e - b.s) :
    b.s + b.get v = getAux b.optrs b.optrs.length (b.s + v) ∧ b.get v < b.e - b.s := by
  obtain ⟨hwfp, hc, hse, hen⟩ := hwf
  have hbridge := sliceGet_bridge hc (b.e - b.s) v hv
  have hsve : b.s + v < b.e := by omega
  have hsvn : b.s + v < b.optrs.length := by omega
  have hmem : ∀ k, (fun x => parent b.optrs x)^[k] (b.s + v) ∈ Finset.Ico b.s b.e := by
    intro k
    have hstep : ∀ x, (b.s ≤ x ∧ x < b.e) →
        (b.s ≤ parent b.optrs x ∧ parent b.optrs x < b.e) := fun x hx => hc x hx.2 hx.1
    have hbase : b.s ≤ b.s + v ∧ b.s + v < b.e := ⟨Nat.le_add_right _ _, hsve⟩
    have := iterate_mem_of_closed (p := b.optrs) (P := fun x => b.s ≤ x ∧ x < b.e)
      hstep hbase k
    simpa [Finset.mem_Ico] using this
  have hr : ∃ f, parent b.optrs ((fun x => parent b.optrs x)^[f] (b.s + v))
      = (fun x => parent b.optrs x)^[f] (b.s + v) := by
    refine ⟨b.optrs.length, ?_⟩
    rw [← getAux_eq_iterate]
    exact hwfp.2 (b.s + v) hsvn
  obtain ⟨m, hm, hroot⟩ := pigeonSet hmem hr
  rw [Nat.card_Ico] at hm
  have he1 : getAux b.optrs (b.e - b.s) (b.s + v)
      = getAux b.optrs b.optrs.length (b.s + v) := by
    rw [getAux_eq_iterate, getAux_eq_iterate,
      iterate_stable hroot (show m ≤ b.e - b.s by omega),
      iterate_stable hroot (show m ≤ b.optrs.length by omega)]
  constructor
  · show b.s + sliceGetAux b.optrs b.s (b.e - b.s) v = _
    rw [hbridge.1, he1]
  · have h2 := hbridge.2
    show sliceGetAux b.optrs b.s (b.e - b.s) v < b.e - b.s
    omega

theorem closedDirect_set {p : List Nat} {s e : Nat} (hc : closedDirect p s e)
    {i r : Nat} (hi : i < p.length) (hr1 : s ≤ r) (hr2 : r < e) :
    closedDirect (p.set i r) s e := by
  intro j hj hsj
  by_cases hji : j = i
  · subst hji
    rw [parent_set_self hi]
    exact ⟨hr1, hr2⟩
  · rw [parent_set_ne hji]
    exact hc j hj hsj

/-- The whole effect of a view `get_compress`: the owner array receives the
global compression write at `s + v`; well-formedness, closure, both counts,
and every local root query are preserved. -/
theorem view_compressAt_spec {b : BUF} (hwf : b.WF) (hinv : b.inv) {v : Nat}
    (hv : v < b.e - b.s) :
    (b.get_compress v).2.WF ∧ (b.get_compress v).2.inv ∧
      (b.get_compress v).2.optrs.length = b.optrs.length ∧
      (∀ x < b.optrs.length, getAux (b.get_compress v).2.optrs b.optrs.length x
        = getAux b.optrs b.optrs.length x) ∧
      (∀ x, parent (b.get_compress v).2.optrs x = x ↔ parent b.optrs x = x) ∧
      (∀ w < b.e - b.s, (b.get_compress v).2.get w = b.get w) := by
  obtain ⟨hwfp, hc, hse, hen⟩ := hwf
  have hglob := view_get_global ⟨hwfp, hc, hse, hen⟩ hv
  have hsvn : b.s + v < b.optrs.length := by omega
  have hoptrs : (b.get_compress v).2.optrs
      = b.optrs.set (b.s + v) (getAux b.optrs b.optrs.length (b.s + v)) := by
    show b.optrs.set (b.s + v) (b.get v + b.s) = _
    rw [Nat.add_comm (b.get v) b.s, hglob.1]
  have hcl := compressList_spec b.optrs (b.s + v) hwfp hsvn
  have hrbound : b.s ≤ getAux b.optrs b.optrs.length (b.s + v) ∧
      getAux b.optrs b.optrs.length (b.s + v) < b.e := by
    rw [← hglob.1]
    omega
  have hwf2 : (b.get_compress v).2.WF := by
    refine ⟨?_, ?_, hse, ?_⟩
    · rw [hoptrs]
      exact hcl.2.1
    · show closedDirect (b.get_compress v).2.optrs b.s b.e
      rw [hoptrs]
      exact closedDirect_set hc hsvn hrbound.1 hrbound.2
    · show b.e ≤ (b.get_compress v).2.optrs.length
      rw [hoptrs, List.length_set]
      exact hen
  refine ⟨hwf2, ?_, ?_, ?_, ?_, ?_⟩
  · constructor
    · show b.olen = countRoots (b.get_compress v).2.optrs
      rw [hoptrs, countRoots_congr (List.length_set ..) hcl.2.2.2]
      exact hinv.1
    · show b.own_len = windowRoots (b.get_compress v).2.optrs b.s b.e
      rw [hoptrs, windowRoots_congr hcl.2.2.2]
      exact hinv.2
  · rw [hoptrs, List.length_set]
  · intro x hx
    rw [hoptrs]
    exact hcl.2.2.1 x hx
  · intro x
    rw [hoptrs]
    exact hcl.2.2.2 x
  · intro w hw
    have hglob2 := view_get_global hwf2
      (v := w) (show w < (b.get_compress v).2.e - (b.get_compress v).2.s from hw)
    have hs2 : (b.get_compress v).2.s = b.s := rfl
    have he2 : (b.get_compress v).2.e = b.e := rfl
    rw [hs2] at hglob2
    have hglobw := view_get_global ⟨hwfp, hc, hse, hen⟩ hw
    have hswn : b.s + w < b.optrs.length := by omega
    have hkey : b.s + (b.get_compress v).2.get w = b.s + b.get w := by
      rw [hglob2.1]
      show getAux (b.get_compress v).2.optrs (b.get_compress v).2.optrs.length _ = _
      rw [hoptrs, List.length_set]
      rw [hcl.2.2.1 (b.s + w) hswn]
      exact hglobw.1.symm
    omega

/-! ## The view's merge -/

/-- The effect of a merge through the borrowed view: the owner's count
(via the back-reference) and the view's own count both stay equal to their
root counts (global and in-window respectively), dropping by exactly 1 iff
two distinct local groups are joined. -/
theorem view_set_spec {b : BUF} (hwf : b.WF) (hinv : b.inv) {v t : Nat}
    (hv : v < b.e - b.s) (ht : t < b.e - b.s) :
    (b.set v t).inv ∧
      ((b.set v t).olen = if b.get v = b.get t then b.olen else b.olen - 1) ∧
      ((b.set v t).own_len = if b.get v = b.get t then b.own_len else b.own_len - 1) := by
  obtain ⟨h1wf, h1inv, h1len, h1get, h1parent, h1local⟩ := view_compressAt_spec hwf hinv ht
  have hv1 : v < (b.get_compress t).2.e - (b.get_compress t).2.s := hv
  obtain ⟨h2wf, h2inv, h2len, h2get, h2parent, h2local⟩ :=
    view_compressAt_spec h1wf h1inv hv1
  have hgv : ((b.get_compress t).2.get_compress v).1 = b.get v := by
    show (b.get_compress t).2.get v = b.get v
    exact h1local v hv
  have hgt : (b.get_compress t).1 = b.get t := rfl
  have hunfold : b.set v t =
      (if ((b.get_compress t).2.get_compress v).1 = (b.get_compress t).1
        then ((b.get_compress t).2.get_compress v).2
        else { ((b.get_compress t).2.get_compress v).2 with
               optrs := ((b.get_compress t).2.get_compress v).2.optrs.set
                  (((b.get_compress t).2.get_compress v).2.s
                    + ((b.get_compress t).2.get_compress v).1)
                  ((b.get_compress t).1 + ((b.get_compress t).2.get_compress v).2.s)
               olen := ((b.get_compress t).2.get_compress v).2.olen - 1
               own_len := ((b.get_compress t).2.get_compress v).2.own_len - 1 }) := rfl
  rw [hgv, hgt] at hunfold
  have hs2 : ((b.get_compress t).2.get_compress v).2.s = b.s := rfl
  have ho2 : ((b.get_compress t).2.get_compress v).2.olen = b.olen := rfl
  have hw2 : ((b.get_compress t).2.get_compress v).2.own_len = b.own_len := rfl
  by_cases hcase : b.get v = b.get t
  · rw [hunfold, if_pos hcase, if_pos hcase, if_pos hcase]
    exact ⟨h2inv, ho2, hw2⟩
  · rw [hunfold, if_neg hcase, if_neg hcase, if_neg hcase, hs2, Nat.add_comm (b.get t) b.s]
    have hwfp := hwf.1
    have hse := hwf.2.2.1
    have hen := hwf.2.2.2
    have hglobv := view_get_global hwf hv
    have hglobt := view_get_global hwf ht
    have hsvn : b.s + v < b.optrs.length := by omega
    have hstn : b.s + t < b.optrs.length := by omega
    have hrootv : parent b.optrs (b.s + b.get v) = b.s + b.get v := by
      rw [hglobv.1]
      exact hwfp.2 (b.s + v) hsvn
    have hroott : parent b.optrs (b.s + b.get t) = b.s + b.get t := by
      rw [hglobt.1]
      exact hwfp.2 (b.s + t) hstn
    have hn2 : ((b.get_compress t).2.get_compress v).2.optrs.length = b.optrs.length :=
      h2len.trans h1len
    have hra2 : parent ((b.get_compress t).2.get_compress v).2.optrs (b.s + b.get v)
        = b.s + b.get v := (h2parent _).mpr ((h1parent _).mpr hrootv)
    have hrb2 : parent ((b.get_compress t).2.get_compress v).2.optrs (b.s + b.get t)
        = b.s + b.get t := (h2parent _).mpr ((h1parent _).mpr hroott)
    have hav : b.s + b.get v < ((b.get_compress t).2.get_compress v).2.optrs.length := by
      rw [hn2]
      have := hglobv.2
      omega
    have hbt : b.s + b.get t < ((b.get_compress t).2.get_compress v).2.optrs.length := by
      rw [hn2]
      have := hglobt.2
      omega
    have hab2 : b.s + b.get v ≠ b.s + b.get t := by omega
    have hlink := linkList_spec ((b.get_compress t).2.get_compress v).2.optrs
      (b.s + b.get v) (b.s + b.get t) h2wf.1 hav hbt hra2 hrb2 hab2
    have hcount : countRoots (((b.get_compress t).2.get_compress v).2.optrs.set
          (b.s + b.get v) (b.s + b.get t)) + 1
        = countRoots ((b.get_compress t).2.get_compress v).2.optrs :=
      countRoots_set_root hav hra2 hlink.2.2.2
    have holen : b.olen = countRoots ((b.get_compress t).2.get_compress v).2.optrs :=
      h2inv.1
    have hwcount : windowRoots (((b.get_compress t).2.get_compress v).2.optrs.set
          (b.s + b.get v) (b.s + b.get t)) b.s b.e + 1
        = windowRoots ((b.get_compress t).2.get_compress v).2.optrs b.s b.e := by
      refine windowRoots_set_root (Nat.le_add_right _ _) ?_ hra2 hlink.2.2.2
      have := hglobv.2
      omega
    have hown : b.own_len = windowRoots ((b.get_compress t).2.get_compress v).2.optrs b.s b.e :=
      h2inv.2
    refine ⟨⟨?_, ?_⟩, rfl, rfl⟩
    · show b.olen - 1 = countRoots (((b.get_compress t).2.get_compress v).2.optrs.set
        (b.s + b.get v) (b.s + b.get t))
      omega
    · show b.own_len - 1 = windowRoots (((b.get_compress t).2.get_compress v).2.optrs.set
        (b.s + b.get v) (b.s + b.get t)) b.s b.e
      omega

/-! ## Subset construction counts -/

theorem subset_own_len (uf : UF) {s e : Nat} (he : e ≤ uf.ptrs.length) :
    (uf.subset s e).own_len = windowRoots uf.ptrs s e := by
  show (((List.range uf.ptrs.length).take e).drop s).countP
      (fun i => decide (parent uf.ptrs i = i)) = _
  rw [List.take_range, Nat.min_eq_left he, drop_range]
  rfl

theorem parent_append_left {p q : List Nat} {i : Nat} (hi : i < p.length) :
    parent (p ++ q) i = parent p i := by
  rw [parent_eq_getElem (by simp; omega), parent_eq_getElem hi]
  exact List.getElem_append_left _

theorem countRoots_extend (uf : UF) (n : Nat) :
    countRoots (uf.extend_by n).ptrs = countRoots uf.ptrs + n := by
  rw [extend_by_ptrs]
  unfold countRoots
  rw [List.length_append, List.length_map, List.length_range, List.range_add,
    List.countP_append]
  congr 1
  · apply List.countP_congr
    intro i hi
    have hin : i < uf.ptrs.length := List.mem_range.mp hi
    simp only [decide_eq_true_eq]
    rw [parent_append_left hin]
  · rw [List.countP_eq_length.mpr, List.length_map, List.length_range]
    intro x hx
    obtain ⟨i, hi, rfl⟩ := List.mem_map.mp hx
    have hin : i < n := List.mem_range.mp hi
    simp only [decide_eq_true_eq]
    have hlt : uf.ptrs.length + i < (uf.ptrs ++ (List.range n).map
        (fun i => uf.ptrs.length + i)).length := by
      simp
      omega
    rw [parent_eq_getElem hlt, List.getElem_append_right (by omega)]
    simp

/-! ## Claim C2: the group-count law -/

/-- C2: `len` bookkeeping.  `new` establishes `len = #roots`; the compressing
query, `set`, the `compress` sweep and `extend_by` all preserve it, with
`set` decrementing by exactly 1 iff two previously distinct groups are
joined; `subset`'s live view starts with `own_len = #window-roots`, and a
merge through the view keeps both the owner's count (via the back-reference)
and the view's own count equal to their respective root counts, decrementing
both by exactly 1 iff two distinct local groups are joined. -/
theorem C2_group_count_law :
    (∀ n, lenInv (UF.new n)) ∧
      (∀ (uf : UF) (v : Nat), uf.WF → v < uf.capacity → lenInv uf →
        lenInv (uf.compressAt v)) ∧
      (∀ (uf : UF) (v t : Nat), uf.WF → v < uf.capacity → t < uf.capacity → lenInv uf →
        lenInv (uf.set v t) ∧
          (uf.set v t).len = (if uf.get v = uf.get t then uf.len else uf.len - 1)) ∧
      (∀ uf : UF, uf.WF → lenInv uf → lenInv uf.compress) ∧
      (∀ (uf : UF) (n : Nat), lenInv uf → lenInv (uf.extend_by n)) ∧
      (∀ (uf : UF) (s e : Nat), lenInv uf → e ≤ uf.capacity → (uf.subset s e).inv) ∧
      (∀ (b : BUF) (v t : Nat), b.WF → b.inv → v < b.e - b.s → t < b.e - b.s →
        (b.set v t).inv ∧
          ((b.set v t).olen = if b.get v = b.get t then b.olen else b.olen - 1) ∧
          ((b.set v t).own_len = if b.get v = b.get t then b.own_len else b.own_len - 1)) := by
  refine ⟨?_, ?_, ?_, ?_, ?_, ?_, ?_⟩
  · intro n
    show n = countRoots (List.range n)
    unfold countRoots
    rw [List.length_range, List.countP_eq_length.mpr, List.length_range]
    intro i hi
    have hin : i < n := List.mem_range.mp hi
    simp only [decide_eq_true_eq]
    unfold parent
    rw [List.getD_eq_getElem _ _ (by simpa using hin)]
    simp
  · intro uf v hwf hv hinv
    show (uf.compressAt v).len = countRoots (uf.compressAt v).ptrs
    rw [compressAt_len_eq,
      countRoots_congr (compressAt_length uf v) (compressAt_parent_iff hwf hv)]
    exact hinv
  · intro uf v t hwf hv ht hinv
    obtain ⟨-, -, -, hlenf, hcount⟩ := set_spec hwf hv ht
    refine ⟨?_, hlenf⟩
    show (uf.set v t).len = countRoots (uf.set v t).ptrs
    rw [hlenf]
    by_cases hcase : uf.get v = uf.get t
    · rw [if_pos hcase] at hcount ⊢
      rw [hcount]
      exact hinv
    · rw [if_neg hcase] at hcount ⊢
      unfold lenInv at hinv
      omega
  · intro uf hwf hinv
    obtain ⟨-, hlenf, -, hcount⟩ := C7_compress_flattens uf hwf
    show uf.compress.len = countRoots uf.compress.ptrs
    rw [hlenf, hcount]
    exact hinv
  · intro uf n hinv
    show (uf.extend_by n).len = countRoots (uf.extend_by n).ptrs
    rw [countRoots_extend]
    show uf.len + n = countRoots uf.ptrs + n
    unfold lenInv at hinv
    omega
  · intro uf s e hinv he
    exact ⟨hinv, subset_own_len uf he⟩
  · intro b v t hwf hinv hv ht
    exact view_set_spec hwf hinv hv ht

theorem C2_group_count_law_witness :
    lenInv ((UF.new 3).set 0 1) ∧
      (((UF.new 4).subset 1 3).set 0 1).olen
        = (if ((UF.new 4).subset 1 3).get 0 = ((UF.new 4).subset 1 3).get 1
            then ((UF.new 4).subset 1 3).olen else ((UF.new 4).subset 1 3).olen - 1) :=
  ⟨(C2_group_count_law.2.2.1 (UF.new 3) 0 1 (by decide) (by decide) (by decide)
      (by decide)).1,
    (C2_group_count_law.2.2.2.2.2.2 ((UF.new 4).subset 1 3) 0 1 (by decide) (by decide)
      (by decide) (by decide)).2.1⟩

/-! ## Claim C4: sub-range extraction -/

/-- C4 counterexample: after merging `0` into `1` in a 2-element forest, the
window `[0, 1)` is not closed under the relation (the root of `0` is `1`,
which lies outside the window), and the claim demands that `subset` reject
it; but `subset` performs no closure check at all and succeeds. -/
theorem C4_counterexample :
    ((UF.new 2).set 0 1).get 0 = 1 ∧ ¬(1 < 1) ∧
      ((UF.new 2).set 0 1).subset_checked 0 1
        = some (((UF.new 2).set 0 1).subset 0 1) := by decide

/-- C4 (amended): `subset_clone` accepts exactly the in-bounds windows all of
whose direct parent slots lie inside the window — rejecting every other
request, including ones whose transitive closure happens to stay inside —
and then reports `len` equal to the number of window roots; `subset` never
checks closure: it accepts every in-bounds window, closed or not, and
reports `own_len` equal to the number of window roots. -/
theorem C4_subset_counts (uf : UF) (s e : Nat) :
    (s ≤ e → e ≤ uf.capacity → closedDirect uf.ptrs s e →
      uf.subset_clone s e
        = some (UF.mk ((List.range (e - s)).map (fun j => parent uf.ptrs (s + j) - s))
            (windowRoots uf.ptrs s e))) ∧
      (¬closedDirect uf.ptrs s e → uf.subset_clone s e = none) ∧
      (s ≤ e → e ≤ uf.capacity →
        uf.subset_checked s e = some (uf.subset s e) ∧
          (uf.subset s e).own_len = windowRoots uf.ptrs s e) := by
  refine ⟨?_, ?_, ?_⟩
  · intro hse he hc
    unfold UF.subset_clone
    rw [if_pos ⟨hse, he, hc⟩]
  · intro hc
    unfold UF.subset_clone
    rw [if_neg (by intro h; exact hc h.2.2)]
  · intro hse he
    constructor
    · unfold UF.subset_checked
      rw [if_pos ⟨hse, he⟩]
    · exact subset_own_len uf he

theorem C4_subset_counts_witness :
    (UF.new 4).subset_clone 1 3
        = some (UF.mk ((List.range 2).map (fun j => parent (UF.new 4).ptrs (1 + j) - 1))
            (windowRoots (UF.new 4).ptrs 1 3)) ∧
      (UF.new 4).subset_checked 1 3 = some ((UF.new 4).subset 1 3) :=
  ⟨(C4_subset_counts (UF.new 4) 1 3).1 (by decide) (by decide) (by decide),
    ((C4_subset_counts (UF.new 4) 1 3).2.2 (by decide) (by decide)).1⟩
